import Mathlib

/-!
# Verification of `tool_apply_diff` (src/app/src-tauri/src/tools/diff_operations.rs)

A shallow embedding of the Rust diff-application engine of GeminiGUI.
Strings are processed at the character level (the relevant separators
`'\n'`, `'\r'`, `'+'`, `'-'`, `'@'`, `' '` are ASCII, so character-level
splitting coincides with Rust's byte-level splitting on UTF-8 text).
`usize` arithmetic is modelled as `Nat` with explicit reduction modulo
`2 ^ 64` exactly where the Rust program performs wrapping arithmetic in
release builds (`old_start - 1` on a parsed header, cursor increments).
Panicking operations (`Vec::insert` with an index larger than the length)
are modelled by `Option`: `none` is a panic.
-/

/-- The constant `2 ^ 64`, the number of values of `usize` on the 64-bit targets the
application ships on. -/
def USIZE : Nat := 2 ^ 64

/-- Test `listStarts s p`: true when `p` is an initial segment of `s`
(character-level model of Rust `str::starts_with`). -/
def listStarts : List Char → List Char → Bool
  | _, [] => true
  | [], _ :: _ => false
  | c :: cs, d :: ds => c == d && listStarts cs ds

/-- Rust `str::starts_with` on the character lists of the two strings. -/
def strStarts (s pat : String) : Bool := listStarts s.toList pat.toList

/-- Split a character list at every `'\n'`; always returns at least one
(possibly empty) piece, like Rust `str::split('\n')`. -/
def splitNl : List Char → List (List Char)
  | [] => [[]]
  | c :: cs =>
    if c = '\n' then [] :: splitNl cs
    else
      match splitNl cs with
      | p :: ps => (c :: p) :: ps
      | [] => [[c]]

/-- Remove one trailing `'\r'`, as Rust `lines()` does on every piece. -/
def stripCR (cs : List Char) : List Char :=
  match cs.getLast? with
  | some c => if c = '\r' then cs.dropLast else cs
  | none => cs

/-- Rust `str::lines()`: split at `'\n'`, drop the final piece when it is
empty (a trailing line terminator yields no extra line), and strip one
trailing `'\r'` from each remaining piece. -/
def rustLines (s : String) : List String :=
  let ps := splitNl s.toList
  let ps := if ps.getLast? = some [] then ps.dropLast else ps
  ps.map (fun cs => String.mk (stripCR cs))

/-- Join character lists with a single `'\n'` separator
(Rust `Vec::join("\n")` at the character level). -/
def joinNlList : List (List Char) → List Char
  | [] => []
  | [l] => l
  | l :: ls => l ++ '\n' :: joinNlList ls

/-- Rust `Vec<String>::join("\n")`. -/
def joinNl (ls : List String) : String :=
  String.mk (joinNlList (ls.map String.toList))

/-- Split a character list at every occurrence of `c`, keeping empty
pieces (Rust `str::split(c)`); always returns at least one piece. -/
def splitCh (c : Char) : List Char → List (List Char)
  | [] => [[]]
  | d :: ds =>
    if d = c then [] :: splitCh c ds
    else
      match splitCh c ds with
      | p :: ps => (d :: p) :: ps
      | [] => [[d]]

/-- Helper for `splitWs`: `acc` holds the characters of the current word,
in reverse. -/
def splitWsAux : List Char → List Char → List (List Char)
  | [], acc => if acc.isEmpty then [] else [acc.reverse]
  | c :: cs, acc =>
    if c.isWhitespace then
      if acc.isEmpty then splitWsAux cs []
      else acc.reverse :: splitWsAux cs []
    else splitWsAux cs (c :: acc)

/-- Rust `str::split_whitespace`: the maximal whitespace-free words, in
order (ASCII whitespace; the header lines being parsed are ASCII). -/
def splitWs (s : String) : List String :=
  (splitWsAux s.toList []).map String.mk

/-- Accumulate decimal digits; fails on the first non-digit character
(helper for `parseUsize`). -/
def parseDigitsAux : List Char → Nat → Option Nat
  | [], acc => some acc
  | c :: cs, acc =>
    if c.isDigit then parseDigitsAux cs (acc * 10 + (c.toNat - 48))
    else none

/-- Rust `str::parse::<usize>()`: one optional leading `'+'`, then a
non-empty run of decimal digits, value below `2 ^ 64` (overflow is a
parse error in Rust). -/
def parseUsize (s : String) : Option Nat :=
  let cs :=
    match s.toList with
    | '+' :: rest => rest
    | cs => cs
  match cs with
  | [] => none
  | _ =>
    match parseDigitsAux cs 0 with
    | some n => if n < USIZE then some n else none
    | none => none

/-- Rust `str::trim_start_matches(c)`: drop every leading occurrence of
`c`. -/
def trimStartMatches (c : Char) (s : String) : String :=
  String.mk (s.toList.dropWhile (fun d => d == c))

/-- Rust `line[1..]` when the line starts with a one-byte ASCII character:
drop the first character. -/
def tailStr (s : String) : String := String.mk s.toList.tail

/-- Function `parse_hunk_header` from diff_operations.rs: on
`@@ -old_start,old_count +new_start,new_count @@`, split the line on
whitespace; fewer than 3 tokens is a parse failure; token 1 is stripped of
leading `'-'` and split at `','` (first field must parse as `usize`, the
count field defaults to `1` when absent or unparseable); token 2 likewise
with leading `'+'`. -/
def parse_hunk_header (line : String) : Option (Nat × Nat × Nat × Nat) :=
  match splitWs line with
  | _ :: p1 :: p2 :: _ =>
    let old_part := trimStartMatches '-' p1
    let old_parts := (splitCh ',' old_part.toList).map String.mk
    match (old_parts.get? 0).bind parseUsize with
    | none => none
    | some old_start =>
      let old_count := ((old_parts.get? 1).bind parseUsize).getD 1
      let new_part := trimStartMatches '+' p2
      let new_parts := (splitCh ',' new_part.toList).map String.mk
      match (new_parts.get? 0).bind parseUsize with
      | none => none
      | some new_start =>
        let new_count := ((new_parts.get? 1).bind parseUsize).getD 1
        some (old_start, old_count, new_start, new_count)
  | _ => none

/-- The guard of the insertion branch of `tool_apply_diff`:
`line.starts_with("+") && !line.starts_with("+++")`. These are exactly
the payload lines counted by `lines_added`. -/
def isPlusLine (l : String) : Bool := strStarts l "+" && !strStarts l "+++"

/-- The guard of the deletion branch of `tool_apply_diff`:
`line.starts_with("-") && !line.starts_with("---")`. These are exactly
the payload lines counted by `lines_removed` when in bounds. -/
def isMinusLine (l : String) : Bool := strStarts l "-" && !strStarts l "---"

/-- Number of `+` payload lines (excluding `+++` headers). -/
def countAdds (d : List String) : Nat := (d.filter isPlusLine).length

/-- Number of `-` payload lines (excluding `---` headers). -/
def countRems (d : List String) : Nat := (d.filter isMinusLine).length

/-- The mutable state of the diff-application loop of `tool_apply_diff`:
the evolving line vector `original_lines`, the two counters and the
cursor `current_line`. -/
structure DiffState where
  lines : List String
  added : Nat
  removed : Nat
  cur : Nat
deriving Repr, DecidableEq

/-- The loop body of `tool_apply_diff` for one line of the diff payload.
`none` models a Rust panic: `Vec::insert` with `current_line` beyond the
vector length. A parsed hunk header sets
`current_line = old_start - 1` with `usize` wrapping (release build), so
`old_start = 0` yields `2 ^ 64 - 1`. Deletion is explicitly
bounds-checked in the source; insertion is not. -/
def stepDiffLine (st : DiffState) (line : String) : Option DiffState :=
  if strStarts line "@@" then
    match parse_hunk_header line with
    | some hunk_info => some { st with cur := (hunk_info.1 + (USIZE - 1)) % USIZE }
    | none => some st
  else if isMinusLine line then
    if st.cur < st.lines.length then
      some { st with lines := st.lines.eraseIdx st.cur, removed := st.removed + 1 }
    else some st
  else if isPlusLine line then
    if st.cur ≤ st.lines.length then
      some { st with lines := st.lines.insertIdx st.cur (tailStr line),
                     added := st.added + 1, cur := (st.cur + 1) % USIZE }
    else none
  else if strStarts line " " then
    some { st with cur := (st.cur + 1) % USIZE }
  else if strStarts line "---" || strStarts line "+++" then
    some st
  else
    some st

/-- The `while i < diff_lines.len()` loop of `tool_apply_diff`. -/
def applyDiffLoop : List String → DiffState → Option DiffState
  | [], st => some st
  | l :: ls, st =>
    match stepDiffLine st l with
    | some st' => applyDiffLoop ls st'
    | none => none

/-- Initial loop state: the original lines, both counters `0`,
`current_line = 0`. -/
def initState (orig : List String) : DiffState :=
  { lines := orig, added := 0, removed := 0, cur := 0 }

/-- The payload `ApplyDiffResult` serialized back to the frontend. -/
structure ApplyDiffResult where
  success : Bool
  message : String
  lines_changed : Nat
  lines_added : Nat
  lines_removed : Nat
deriving Repr, DecidableEq

/-- The file-system cell `tool_apply_diff` interacts with: whether the
path exists, whether a read succeeds, whether a write succeeds, and the
stored content. -/
structure FileState where
  fileExists : Bool
  readsOk : Bool
  writesOk : Bool
  content : String
deriving Repr, DecidableEq

/-- Command `tool_apply_diff` from diff_operations.rs. Returns `none` when the
loop panics; otherwise `some (result, fs')` where `result` is the Rust
`Result<ApplyDiffResult, String>` and `fs'` the file system after the
call (content updated only by a successful write). -/
def tool_apply_diff (fs : FileState) (path diff_content : String) :
    Option (Except String ApplyDiffResult × FileState) :=
  if !fs.fileExists then
    some (Except.error ("File does not exist: " ++ path), fs)
  else if !fs.readsOk then
    some (Except.error "Failed to read file", fs)
  else
    let original_lines := rustLines fs.content
    let diff_lines := rustLines diff_content
    match applyDiffLoop diff_lines (initState original_lines) with
    | none => none
    | some st =>
      let new_content := joinNl st.lines
      if !fs.writesOk then
        some (Except.error "Failed to write file", fs)
      else
        some (Except.ok
          { success := true
            message := "Successfully applied diff to " ++ path
            lines_changed := st.added + st.removed
            lines_added := st.added
            lines_removed := st.removed },
          { fs with content := new_content })

instance {ε α : Type} [DecidableEq ε] [DecidableEq α] : DecidableEq (Except ε α)
  | Except.error a, Except.error b =>
    if h : a = b then isTrue (by rw [h]) else isFalse (by intro hc; cases hc; exact h rfl)
  | Except.error _, Except.ok _ => isFalse (by intro hc; cases hc)
  | Except.ok _, Except.error _ => isFalse (by intro hc; cases hc)
  | Except.ok a, Except.ok b =>
    if h : a = b then isTrue (by rw [h]) else isFalse (by intro hc; cases hc; exact h rfl)

/-- The file state after one successful application, `none` when the call
errored or panicked. -/
def afterApply (fs : FileState) (path diff_content : String) : Option FileState :=
  match tool_apply_diff fs path diff_content with
  | some (Except.ok _, fs') => some fs'
  | _ => none

/-- Strict variant of `stepDiffLine`, used only to state the
precondition of C6: identical to the engine's step except that an
out-of-range deletion is a failure instead of a skip, so a successful
strict run certifies that every deletion and every addition of the
payload fell within the bounds of the evolving line sequence. -/
def stepStrict (st : DiffState) (line : String) : Option DiffState :=
  if strStarts line "@@" then
    match parse_hunk_header line with
    | some hunk_info => some { st with cur := (hunk_info.1 + (USIZE - 1)) % USIZE }
    | none => some st
  else if isMinusLine line then
    if st.cur < st.lines.length then
      some { st with lines := st.lines.eraseIdx st.cur, removed := st.removed + 1 }
    else none
  else if isPlusLine line then
    if st.cur ≤ st.lines.length then
      some { st with lines := st.lines.insertIdx st.cur (tailStr line),
                     added := st.added + 1, cur := (st.cur + 1) % USIZE }
    else none
  else if strStarts line " " then
    some { st with cur := (st.cur + 1) % USIZE }
  else if strStarts line "---" || strStarts line "+++" then
    some st
  else
    some st

/-- Loop of `stepStrict` (see `stepStrict`). -/
def applyDiffStrict : List String → DiffState → Option DiffState
  | [], st => some st
  | l :: ls, st =>
    match stepStrict st l with
    | some st' => applyDiffStrict ls st'
    | none => none

-- Helper lemmas about `strStarts` heads.

theorem head_of_strStarts {l p : String} {d : Char} {ds : List Char}
    (hp : p.toList = d :: ds) (h : strStarts l p = true) :
    ∃ as, l.toList = d :: as := by
  unfold strStarts at h
  rw [hp] at h
  cases hl : l.toList with
  | nil => rw [hl] at h; simp [listStarts] at h
  | cons a as =>
    rw [hl] at h
    simp only [listStarts, Bool.and_eq_true, beq_iff_eq] at h
    exact ⟨as, by rw [h.1]⟩

theorem strStarts_head_eq {l : String} {a : Char} {as : List Char}
    (hl : l.toList = a :: as) {p : String} {d : Char} {ds : List Char}
    (hp : p.toList = d :: ds) (h : strStarts l p = true) : a = d := by
  unfold strStarts at h
  rw [hl, hp] at h
  simp only [listStarts, Bool.and_eq_true, beq_iff_eq] at h
  exact h.1

theorem strStarts_false_of_head {l : String} {c : Char} {as : List Char}
    (hl : l.toList = c :: as) {p : String} {d : Char} {ds : List Char}
    (hp : p.toList = d :: ds) (hne : c ≠ d) : strStarts l p = false := by
  unfold strStarts
  rw [hl, hp]
  simp [listStarts, beq_iff_eq, hne]

theorem not_at_of_minus {l : String} (h : strStarts l "-" = true) :
    strStarts l "@@" = false := by
  obtain ⟨as, hl⟩ := head_of_strStarts (p := "-") rfl h
  exact strStarts_false_of_head hl (p := "@@") rfl (by decide)

theorem not_at_of_plus {l : String} (h : strStarts l "+" = true) :
    strStarts l "@@" = false := by
  obtain ⟨as, hl⟩ := head_of_strStarts (p := "+") rfl h
  exact strStarts_false_of_head hl (p := "@@") rfl (by decide)

theorem not_minus_of_plus {l : String} (h : strStarts l "+" = true) :
    strStarts l "-" = false := by
  obtain ⟨as, hl⟩ := head_of_strStarts (p := "+") rfl h
  exact strStarts_false_of_head hl (p := "-") rfl (by decide)

theorem not_plus_of_minus {l : String} (h : strStarts l "-" = true) :
    strStarts l "+" = false := by
  obtain ⟨as, hl⟩ := head_of_strStarts (p := "-") rfl h
  exact strStarts_false_of_head hl (p := "+") rfl (by decide)

theorem not_plus_of_at {l : String} (h : strStarts l "@@" = true) :
    strStarts l "+" = false := by
  obtain ⟨as, hl⟩ := head_of_strStarts (p := "@@") rfl h
  exact strStarts_false_of_head hl (p := "+") rfl (by decide)

theorem not_minus_of_at {l : String} (h : strStarts l "@@" = true) :
    strStarts l "-" = false := by
  obtain ⟨as, hl⟩ := head_of_strStarts (p := "@@") rfl h
  exact strStarts_false_of_head hl (p := "-") rfl (by decide)


-- Derived facts about the branch guards.

theorem strStarts_minus_of_isMinusLine {l : String} (h : isMinusLine l = true) :
    strStarts l "-" = true := by
  unfold isMinusLine at h
  exact (Bool.and_eq_true _ _ |>.mp h).1

theorem strStarts_plus_of_isPlusLine {l : String} (h : isPlusLine l = true) :
    strStarts l "+" = true := by
  unfold isPlusLine at h
  exact (Bool.and_eq_true _ _ |>.mp h).1

theorem not_isPlusLine_of_minus {l : String} (h : isMinusLine l = true) :
    isPlusLine l = false := by
  unfold isPlusLine
  rw [not_plus_of_minus (strStarts_minus_of_isMinusLine h)]
  rfl

theorem not_isMinusLine_of_plus {l : String} (h : isPlusLine l = true) :
    isMinusLine l = false := by
  unfold isMinusLine
  rw [not_minus_of_plus (strStarts_plus_of_isPlusLine h)]
  rfl

theorem not_isPlusLine_of_at {l : String} (h : strStarts l "@@" = true) :
    isPlusLine l = false := by
  unfold isPlusLine
  rw [not_plus_of_at h]
  rfl

theorem not_isMinusLine_of_at {l : String} (h : strStarts l "@@" = true) :
    isMinusLine l = false := by
  unfold isMinusLine
  rw [not_minus_of_at h]
  rfl

theorem not_at_of_isMinusLine {l : String} (h : isMinusLine l = true) :
    strStarts l "@@" = false :=
  not_at_of_minus (strStarts_minus_of_isMinusLine h)

theorem not_at_of_isPlusLine {l : String} (h : isPlusLine l = true) :
    strStarts l "@@" = false :=
  not_at_of_plus (strStarts_plus_of_isPlusLine h)

/-- An inert diff line (no hunk marker, no `+`/`-` payload) never changes
the line vector or the counters; only the cursor may advance. -/
theorem inert_step (st : DiffState) (l : String)
    (h1 : strStarts l "@@" = false) (h2 : isPlusLine l = false)
    (h3 : isMinusLine l = false) :
    ∃ c, stepDiffLine st l = some { st with cur := c } := by
  unfold stepDiffLine
  rw [h1, h2, h3]
  simp only [Bool.false_eq_true, if_false]
  by_cases hsp : strStarts l " " = true
  · exact ⟨(st.cur + 1) % USIZE, by rw [hsp]; simp⟩
  · refine ⟨st.cur, ?_⟩
    have hst : { st with cur := st.cur } = st := rfl
    rw [Bool.not_eq_true] at hsp
    rw [hsp]
    simp only [Bool.false_eq_true, if_false, hst]
    split <;> rfl

/-- Running the loop over inert lines only returns successfully and
leaves the line vector and both counters untouched. -/
theorem inert_loop :
    ∀ (d : List String),
      (∀ l ∈ d, strStarts l "@@" = false ∧ isPlusLine l = false ∧ isMinusLine l = false) →
      ∀ st, ∃ st', applyDiffLoop d st = some st' ∧
        st'.lines = st.lines ∧ st'.added = st.added ∧ st'.removed = st.removed := by
  intro d
  induction d with
  | nil => exact fun _ st => ⟨st, rfl, rfl, rfl, rfl⟩
  | cons l ls ih =>
    intro hd st
    obtain ⟨h1, h2, h3⟩ := hd l (List.mem_cons_self _ _)
    obtain ⟨c, hc⟩ := inert_step st l h1 h2 h3
    obtain ⟨st', hloop, hl, ha, hr⟩ :=
      ih (fun x hx => hd x (List.mem_cons_of_mem _ hx)) { st with cur := c }
    exact ⟨st', by simp [applyDiffLoop, hc, hloop], hl, ha, hr⟩

/-- C3: applying `@@ -1,3 +1,3 @@ / L1 / -L2 / +L2x / L3` to `L1\nL2\nL3`
yields `L1\nL2x\nL3` with `lines_added = 1`, `lines_removed = 1`,
`lines_changed = 2`. -/
theorem round_trip_example :
    tool_apply_diff ⟨true, true, true, "L1\nL2\nL3"⟩ "file.txt"
      "@@ -1,3 +1,3 @@\n L1\n-L2\n+L2x\n L3" =
    some (Except.ok
      ⟨true, "Successfully applied diff to file.txt", 2, 1, 1⟩,
      ⟨true, true, true, "L1\nL2x\nL3"⟩) := by decide

/-- C7: the diff `@@ -10,1 +10,0 @@ / -ghost` on a 3-line file skips the
out-of-range deletion: the call succeeds (no panic), reports
`lines_removed = 0`, and the stored content is unchanged. -/
theorem deletion_past_eof_skipped :
    tool_apply_diff ⟨true, true, true, "a\nb\nc"⟩ "file.txt"
      "@@ -10,1 +10,0 @@\n-ghost" =
    some (Except.ok
      ⟨true, "Successfully applied diff to file.txt", 0, 0, 0⟩,
      ⟨true, true, true, "a\nb\nc"⟩) := by decide

/-- C1 counterexample: the claim says an addition whose cursor exceeds
the sequence length is skipped without panicking and without aborting
the rest of the patch. On a 1-line file, `@@ -5,0 +5,1 @@` sets the
cursor to 4 and the following `+x` reaches `Vec::insert` with index 4 on
a vector of length 1, which panics (modelled as `none`): the whole call
aborts instead of skipping the operation. -/
theorem insert_out_of_range_panics :
    tool_apply_diff ⟨true, true, true, "a"⟩ "file.txt" "@@ -5,0 +5,1 @@\n+x" =
      none := by decide

/-- C1 (amended): before each deletion the code checks
`0 <= cursor < len` and skips the deletion (state unchanged) when the
check fails, without aborting the rest of the patch; but an addition is
not bounds-checked: when `cursor > len` the insertion panics, aborting
the whole call; and a hunk header with `old_start = 0` does not clamp
the cursor at 0 — the `usize` subtraction `old_start - 1` wraps to
`2 ^ 64 - 1`. -/
theorem cursor_bounds_amended :
    (∀ (st : DiffState) (l : String), isMinusLine l = true →
      st.lines.length ≤ st.cur → stepDiffLine st l = some st) ∧
    (∀ (st : DiffState) (l : String), isPlusLine l = true →
      st.lines.length < st.cur → stepDiffLine st l = none) ∧
    (∀ (st : DiffState) (l : String) (info : Nat × Nat × Nat × Nat),
      strStarts l "@@" = true → parse_hunk_header l = some info → info.1 = 0 →
      stepDiffLine st l = some { st with cur := USIZE - 1 }) := by
  refine ⟨?_, ?_, ?_⟩
  · intro st l h hge
    unfold stepDiffLine
    rw [not_at_of_isMinusLine h, h]
    simp only [Bool.false_eq_true, if_false, if_true]
    rw [if_neg (Nat.not_lt.2 hge)]
  · intro st l h hlt
    unfold stepDiffLine
    rw [not_at_of_isPlusLine h, not_isMinusLine_of_plus h, h]
    simp only [Bool.false_eq_true, if_false, if_true]
    rw [if_neg (Nat.not_le.2 hlt)]
  · intro st l info hat hparse h0
    unfold stepDiffLine
    rw [hat]
    simp only [if_true, hparse]
    have : (info.1 + (USIZE - 1)) % USIZE = USIZE - 1 := by
      rw [h0]
      have hpos : 0 < USIZE := by unfold USIZE; positivity
      exact Nat.mod_eq_of_lt (by omega)
    rw [this]

/-- Witness for `cursor_bounds_amended` at concrete inputs. -/
theorem cursor_bounds_amended_witness :
    stepDiffLine ⟨["a"], 0, 0, 5⟩ "-x" = some ⟨["a"], 0, 0, 5⟩ ∧
    stepDiffLine ⟨["a"], 0, 0, 2⟩ "+x" = none ∧
    stepDiffLine ⟨["a"], 0, 0, 0⟩ "@@ -0,0 +1,3 @@" =
      some ⟨["a"], 0, 0, USIZE - 1⟩ :=
  ⟨cursor_bounds_amended.1 ⟨["a"], 0, 0, 5⟩ "-x" (by decide) (by decide),
   cursor_bounds_amended.2.1 ⟨["a"], 0, 0, 2⟩ "+x" (by decide) (by decide),
   cursor_bounds_amended.2.2 ⟨["a"], 0, 0, 0⟩ "@@ -0,0 +1,3 @@" (0, 0, 1, 3)
     (by decide) (by decide) rfl⟩

/-- C5: a line starting with `@@` whose hunk header cannot be parsed is
non-fatal: the cursor (and the whole loop state) keeps its previous
value, no error is produced, and the remaining payload lines are
processed exactly as if the malformed marker were absent. -/
theorem malformed_header_non_fatal (st : DiffState) (line : String)
    (h1 : strStarts line "@@" = true) (h2 : parse_hunk_header line = none) :
    stepDiffLine st line = some st ∧
    ∀ rest, applyDiffLoop (line :: rest) st = applyDiffLoop rest st := by
  have hstep : stepDiffLine st line = some st := by
    unfold stepDiffLine
    rw [h1]
    simp only [if_true, h2]
  exact ⟨hstep, fun rest => by simp [applyDiffLoop, hstep]⟩

/-- Witness for `malformed_header_non_fatal`: the spec's own example
`@@ garbage @@`, anchored at the initial cursor 0. -/
theorem malformed_header_non_fatal_witness :
    strStarts "@@ garbage @@" "@@" = true ∧
    parse_hunk_header "@@ garbage @@" = none ∧
    stepDiffLine (initState ["a"]) "@@ garbage @@" = some (initState ["a"]) :=
  ⟨by decide, by decide,
   (malformed_header_non_fatal (initState ["a"]) "@@ garbage @@"
     (by decide) (by decide)).1⟩

/-- C2 counterexample: the claim says the content is left byte-identical
to the input, including a trailing newline. A no-hunk diff on the
content `"a\n"` succeeds with all counters zero, but the stored content
becomes `"a"`: the trailing newline is lost by the
`lines()` / `join("\n")` round trip. -/
theorem no_hunk_diff_not_byte_identical :
    tool_apply_diff ⟨true, true, true, "a\n"⟩ "f" "--- a\n+++ b" =
      some (Except.ok ⟨true, "Successfully applied diff to f", 0, 0, 0⟩,
        ⟨true, true, true, "a"⟩) ∧ ("a" : String) ≠ "a\n" :=
  ⟨by decide, by decide⟩

/-- C2 (amended): a diff payload with no `@@` hunk marker and no `+`/`-`
payload line (only `---`/`+++` headers, context lines and other inert
lines) returns `success = true` with all three counters zero, and the
stored content becomes the original's lines re-joined with `"\n"` — so
it is byte-identical to the input exactly when the input had LF endings
and no trailing newline, while a trailing newline or CRLF endings are
normalized away. -/
theorem no_hunk_diff_rejoins_lines (s p d : String)
    (hd : ∀ l ∈ rustLines d,
      strStarts l "@@" = false ∧ isPlusLine l = false ∧ isMinusLine l = false) :
    tool_apply_diff ⟨true, true, true, s⟩ p d =
      some (Except.ok ⟨true, "Successfully applied diff to " ++ p, 0, 0, 0⟩,
        ⟨true, true, true, joinNl (rustLines s)⟩) := by
  obtain ⟨st', hloop, hl, ha, hr⟩ := inert_loop (rustLines d) hd (initState (rustLines s))
  unfold tool_apply_diff
  simp only [Bool.not_true, Bool.false_eq_true, if_false, hloop]
  rw [ha, hr, hl]
  rfl

/-- Witness for `no_hunk_diff_rejoins_lines`: a payload of headers, one
context line and one inert line, applied to CRLF content with a trailing
newline; the result is the normalized re-join of its lines. -/
theorem no_hunk_diff_rejoins_lines_witness :
    tool_apply_diff ⟨true, true, true, "x\r\ny\n"⟩ "f" "--- a\n+++ b\n ctx\njunk" =
      some (Except.ok ⟨true, "Successfully applied diff to f", 0, 0, 0⟩,
        ⟨true, true, true, "x\ny"⟩) := by
  have h := no_hunk_diff_rejoins_lines "x\r\ny\n" "f" "--- a\n+++ b\n ctx\njunk"
    (by decide)
  rw [h]
  rfl

/-- C4: a missing target path or a failed read yields `Err` before any
mutation (the file system is returned unchanged); a successful `Ok`
result implies the final write succeeded and carries `success = true`;
and when the loop completes but the write fails, the call returns `Err`,
never success. -/
theorem error_paths :
    (∀ (fs : FileState) (p d : String), fs.fileExists = false →
      tool_apply_diff fs p d =
        some (Except.error ("File does not exist: " ++ p), fs)) ∧
    (∀ (fs : FileState) (p d : String), fs.fileExists = true → fs.readsOk = false →
      tool_apply_diff fs p d = some (Except.error "Failed to read file", fs)) ∧
    (∀ (fs : FileState) (p d : String) (r : ApplyDiffResult) (fs' : FileState),
      tool_apply_diff fs p d = some (Except.ok r, fs') →
      fs.writesOk = true ∧ r.success = true) ∧
    (∀ (fs : FileState) (p d : String) (st : DiffState),
      fs.fileExists = true → fs.readsOk = true → fs.writesOk = false →
      applyDiffLoop (rustLines d) (initState (rustLines fs.content)) = some st →
      tool_apply_diff fs p d = some (Except.error "Failed to write file", fs)) := by
  refine ⟨?_, ?_, ?_, ?_⟩
  · intro fs p d h
    simp [tool_apply_diff, h]
  · intro fs p d he hr
    simp [tool_apply_diff, he, hr]
  · intro fs p d r fs' h
    by_cases hfe : fs.fileExists
    · by_cases hro : fs.readsOk
      · cases hml : applyDiffLoop (rustLines d) (initState (rustLines fs.content)) with
        | none => simp [tool_apply_diff, hfe, hro, hml] at h
        | some st =>
          by_cases hw : fs.writesOk
          · refine ⟨hw, ?_⟩
            simp only [tool_apply_diff, hfe, hro, hml, hw, Bool.not_true,
              Bool.false_eq_true, if_false, Option.some_inj] at h
            have hA := congrArg Prod.fst h
            injection hA with hA2
            rw [← hA2]
          · rw [Bool.not_eq_true] at hw
            simp [tool_apply_diff, hfe, hro, hml, hw] at h
      · rw [Bool.not_eq_true] at hro
        simp [tool_apply_diff, hfe, hro] at h
    · rw [Bool.not_eq_true] at hfe
      simp [tool_apply_diff, hfe] at h
  · intro fs p d st he hr hw hloop
    simp [tool_apply_diff, he, hr, hw, hloop]

/-- Witness for `error_paths` at concrete file states. -/
theorem error_paths_witness :
    tool_apply_diff ⟨false, true, true, "a"⟩ "p" "+x" =
      some (Except.error "File does not exist: p", ⟨false, true, true, "a"⟩) ∧
    tool_apply_diff ⟨true, false, true, "a"⟩ "p" "+x" =
      some (Except.error "Failed to read file", ⟨true, false, true, "a"⟩) ∧
    (⟨true, true, true, "a"⟩ : FileState).writesOk = true ∧
    (⟨true, "Successfully applied diff to p", 1, 1, 0⟩ : ApplyDiffResult).success = true ∧
    tool_apply_diff ⟨true, true, false, "a"⟩ "p" "+x" =
      some (Except.error "Failed to write file", ⟨true, true, false, "a"⟩) := by
  refine ⟨error_paths.1 _ "p" "+x" rfl, error_paths.2.1 _ "p" "+x" rfl rfl, ?_, ?_,
    error_paths.2.2.2 ⟨true, true, false, "a"⟩ "p" "+x" ⟨["x", "a"], 1, 0, 1⟩
      rfl rfl rfl (by decide)⟩
  · exact (error_paths.2.2.1 ⟨true, true, true, "a"⟩ "p" "+x"
      ⟨true, "Successfully applied diff to p", 1, 1, 0⟩ ⟨true, true, true, "x\na"⟩
      (by decide)).1
  · exact (error_paths.2.2.1 ⟨true, true, true, "a"⟩ "p" "+x"
      ⟨true, "Successfully applied diff to p", 1, 1, 0⟩ ⟨true, true, true, "x\na"⟩
      (by decide)).2

/-- C8 counterexample: the claim says applying the same addition-only
diff twice always yields a different text than applying it once. The
addition-only diff `"+"` (one `+` line, inserting an empty line) applied
to an empty file succeeds, but the inserted empty line is absorbed by
the `join("\n")` / `lines()` round trip: the stored text is `""` after
one application and still `""` after two. -/
theorem addition_only_twice_can_coincide :
    afterApply ⟨true, true, true, ""⟩ "f" "+" = some ⟨true, true, true, ""⟩ ∧
    (afterApply ⟨true, true, true, ""⟩ "f" "+").bind
        (fun fs1 => afterApply fs1 "f" "+") =
      afterApply ⟨true, true, true, ""⟩ "f" "+" ∧
    countAdds (rustLines "+") = 1 ∧
    (∀ l ∈ rustLines "+", isMinusLine l = false) :=
  ⟨by decide, by decide, by decide, by decide⟩

/-- A successful strict step is exactly what the engine's step does. -/
theorem stepStrict_imp_step {st st' : DiffState} {l : String}
    (h : stepStrict st l = some st') : stepDiffLine st l = some st' := by
  by_cases hat : strStarts l "@@"
  · simp only [stepStrict, hat, if_true] at h
    simp only [stepDiffLine, hat, if_true]
    exact h
  · rw [Bool.not_eq_true] at hat
    by_cases hm : isMinusLine l
    · simp only [stepStrict, hat, Bool.false_eq_true, if_false, hm, if_true] at h
      simp only [stepDiffLine, hat, Bool.false_eq_true, if_false, hm, if_true]
      by_cases hcur : st.cur < st.lines.length
      · rw [if_pos hcur] at h
        rw [if_pos hcur]
        exact h
      · rw [if_neg hcur] at h
        cases h
    · rw [Bool.not_eq_true] at hm
      simp only [stepStrict, hat, hm, Bool.false_eq_true, if_false] at h
      simp only [stepDiffLine, hat, hm, Bool.false_eq_true, if_false]
      exact h

/-- A successful engine step increments `lines_added` exactly on `+`
payload lines. -/
theorem step_added {st st' : DiffState} {l : String}
    (h : stepDiffLine st l = some st') :
    st'.added = st.added + (if isPlusLine l = true then 1 else 0) := by
  by_cases hat : strStarts l "@@"
  · rw [if_neg (by rw [not_isPlusLine_of_at hat]; exact Bool.false_ne_true)]
    simp only [stepDiffLine, hat, if_true] at h
    cases hp : parse_hunk_header l with
    | none => rw [hp] at h; cases h; rfl
    | some info => rw [hp] at h; cases h; rfl
  · rw [Bool.not_eq_true] at hat
    by_cases hm : isMinusLine l
    · rw [if_neg (by rw [not_isPlusLine_of_minus hm]; exact Bool.false_ne_true)]
      simp only [stepDiffLine, hat, Bool.false_eq_true, if_false, hm, if_true] at h
      by_cases hcur : st.cur < st.lines.length
      · rw [if_pos hcur] at h; cases h; rfl
      · rw [if_neg hcur] at h; cases h; rfl
    · rw [Bool.not_eq_true] at hm
      by_cases hp : isPlusLine l
      · rw [if_pos hp]
        simp only [stepDiffLine, hat, hm, hp, Bool.false_eq_true, if_false, if_true] at h
        by_cases hcur : st.cur ≤ st.lines.length
        · rw [if_pos hcur] at h; cases h; rfl
        · rw [if_neg hcur] at h; cases h
      · rw [Bool.not_eq_true] at hp
        rw [hp]
        simp only [stepDiffLine, hat, hm, hp, Bool.false_eq_true, if_false] at h
        by_cases hsp : strStarts l " "
        · rw [if_pos hsp] at h; cases h; rfl
        · rw [if_neg hsp] at h
          split at h <;> (cases h; rfl)

/-- A successful engine step on a non-`-` line leaves `lines_removed`
unchanged. -/
theorem step_removed_of_not_minus {st st' : DiffState} {l : String}
    (hm : isMinusLine l = false) (h : stepDiffLine st l = some st') :
    st'.removed = st.removed := by
  by_cases hat : strStarts l "@@"
  · simp only [stepDiffLine, hat, if_true] at h
    cases hp : parse_hunk_header l with
    | none => rw [hp] at h; cases h; rfl
    | some info => rw [hp] at h; cases h; rfl
  · rw [Bool.not_eq_true] at hat
    by_cases hp : isPlusLine l
    · simp only [stepDiffLine, hat, hm, hp, Bool.false_eq_true, if_false, if_true] at h
      by_cases hcur : st.cur ≤ st.lines.length
      · rw [if_pos hcur] at h; cases h; rfl
      · rw [if_neg hcur] at h; cases h
    · rw [Bool.not_eq_true] at hp
      simp only [stepDiffLine, hat, hm, hp, Bool.false_eq_true, if_false] at h
      by_cases hsp : strStarts l " "
      · rw [if_pos hsp] at h; cases h; rfl
      · rw [if_neg hsp] at h
        split at h <;> (cases h; rfl)

/-- A successful strict step increments `lines_removed` exactly on `-`
payload lines. -/
theorem stepStrict_removed {st st' : DiffState} {l : String}
    (h : stepStrict st l = some st') :
    st'.removed = st.removed + (if isMinusLine l = true then 1 else 0) := by
  by_cases hm : isMinusLine l
  · rw [if_pos hm]
    rw [stepStrict, if_neg (by rw [not_at_of_isMinusLine hm]; exact Bool.false_ne_true),
      if_pos hm] at h
    by_cases hcur : st.cur < st.lines.length
    · rw [if_pos hcur] at h; cases h; rfl
    · rw [if_neg hcur] at h; cases h
  · rw [Bool.not_eq_true] at hm
    rw [hm]
    simp only [Bool.false_eq_true, if_false, Nat.add_zero]
    exact step_removed_of_not_minus hm (stepStrict_imp_step h)

/-- One engine step preserves
`length + removed - added` (stated additively). -/
theorem step_len {st st' : DiffState} {l : String}
    (h : stepDiffLine st l = some st') :
    st'.lines.length + st'.removed + st.added =
      st.lines.length + st.removed + st'.added := by
  by_cases hat : strStarts l "@@"
  · simp only [stepDiffLine, hat, if_true] at h
    cases hp : parse_hunk_header l with
    | none => rw [hp] at h; cases h; rfl
    | some info => rw [hp] at h; cases h; rfl
  · rw [Bool.not_eq_true] at hat
    by_cases hm : isMinusLine l
    · simp only [stepDiffLine, hat, Bool.false_eq_true, if_false, hm, if_true] at h
      by_cases hcur : st.cur < st.lines.length
      · rw [if_pos hcur] at h
        cases h
        simp only
        have := List.length_eraseIdx_add_one hcur
        omega
      · rw [if_neg hcur] at h; cases h; rfl
    · rw [Bool.not_eq_true] at hm
      by_cases hp : isPlusLine l
      · simp only [stepDiffLine, hat, hm, hp, Bool.false_eq_true, if_false, if_true] at h
        by_cases hcur : st.cur ≤ st.lines.length
        · rw [if_pos hcur] at h
          cases h
          simp only
          rw [List.length_insertIdx _ _ hcur]
          omega
        · rw [if_neg hcur] at h; cases h
      · rw [Bool.not_eq_true] at hp
        simp only [stepDiffLine, hat, hm, hp, Bool.false_eq_true, if_false] at h
        by_cases hsp : strStarts l " "
        · rw [if_pos hsp] at h; cases h; rfl
        · rw [if_neg hsp] at h
          split at h <;> (cases h; rfl)

/-- Over a successful run, `lines_added` grows by exactly the number of
`+` payload lines: every `+` line either inserts or panics, never
skips. -/
theorem loop_added :
    ∀ (d : List String) (st st' : DiffState), applyDiffLoop d st = some st' →
      st'.added = st.added + countAdds d := by
  intro d
  induction d with
  | nil =>
    intro st st' h
    cases h
    simp [countAdds]
  | cons l ls ih =>
    intro st st' h
    unfold applyDiffLoop at h
    cases hstep : stepDiffLine st l with
    | none => rw [hstep] at h; cases h
    | some st1 =>
      rw [hstep] at h
      have h1 := step_added hstep
      have h2 := ih st1 st' h
      have hc : countAdds (l :: ls) = (if isPlusLine l = true then 1 else 0) + countAdds ls := by
        simp only [countAdds, List.filter]
        split <;> simp_all <;> omega
      omega

/-- Over a successful run,
`final length + final removed = initial length + final added` relative
to the initial counters. -/
theorem loop_len :
    ∀ (d : List String) (st st' : DiffState), applyDiffLoop d st = some st' →
      st'.lines.length + st'.removed + st.added =
        st.lines.length + st.removed + st'.added := by
  intro d
  induction d with
  | nil => intro st st' h; cases h; rfl
  | cons l ls ih =>
    intro st st' h
    unfold applyDiffLoop at h
    cases hstep : stepDiffLine st l with
    | none => rw [hstep] at h; cases h
    | some st1 =>
      rw [hstep] at h
      have h1 := step_len hstep
      have h2 := ih st1 st' h
      omega

/-- A successful run over a payload with no `-` line never touches
`lines_removed`. -/
theorem loop_removed_of_noMinus :
    ∀ (d : List String) (st st' : DiffState),
      (∀ l ∈ d, isMinusLine l = false) → applyDiffLoop d st = some st' →
      st'.removed = st.removed := by
  intro d
  induction d with
  | nil => intro st st' _ h; cases h; rfl
  | cons l ls ih =>
    intro st st' hd h
    unfold applyDiffLoop at h
    cases hstep : stepDiffLine st l with
    | none => rw [hstep] at h; cases h
    | some st1 =>
      rw [hstep] at h
      have h1 := step_removed_of_not_minus (hd l (List.mem_cons_self _ _)) hstep
      have h2 := ih st1 st' (fun x hx => hd x (List.mem_cons_of_mem _ hx)) h
      omega

/-- A successful strict run is a successful engine run with the same
final state, and its counters equal the literal `+`/`-` line counts of
the payload. -/
theorem strict_loop :
    ∀ (d : List String) (st st' : DiffState), applyDiffStrict d st = some st' →
      applyDiffLoop d st = some st' ∧
      st'.added = st.added + countAdds d ∧
      st'.removed = st.removed + countRems d := by
  intro d
  induction d with
  | nil =>
    intro st st' h
    cases h
    exact ⟨rfl, by simp [countAdds], by simp [countRems]⟩
  | cons l ls ih =>
    intro st st' h
    unfold applyDiffStrict at h
    cases hstep : stepStrict st l with
    | none => rw [hstep] at h; cases h
    | some st1 =>
      rw [hstep] at h
      obtain ⟨hrun, hadd, hrem⟩ := ih st1 st' h
      have hstep' := stepStrict_imp_step hstep
      refine ⟨by simp [applyDiffLoop, hstep', hrun], ?_, ?_⟩
      · have h1 := step_added hstep'
        have hc : countAdds (l :: ls) =
            (if isPlusLine l = true then 1 else 0) + countAdds ls := by
          simp only [countAdds, List.filter]
          split <;> simp_all <;> omega
        omega
      · have h1 := stepStrict_removed hstep
        have hc : countRems (l :: ls) =
            (if isMinusLine l = true then 1 else 0) + countRems ls := by
          simp only [countRems, List.filter]
          split <;> simp_all <;> omega
        omega

/-- Simulation step for re-applying an addition-only payload: the cursor
trajectory is independent of the file content, and a longer line vector
satisfies every bound the shorter one did. -/
theorem step_sim {st1 st1' st2 : DiffState} {l : String}
    (hm : isMinusLine l = false) (h : stepDiffLine st1 l = some st1')
    (hcur : st2.cur = st1.cur) (hlen : st1.lines.length ≤ st2.lines.length) :
    ∃ st2', stepDiffLine st2 l = some st2' ∧ st2'.cur = st1'.cur ∧
      st1'.lines.length ≤ st2'.lines.length := by
  by_cases hat : strStarts l "@@"
  · simp only [stepDiffLine, hat, if_true] at h ⊢
    cases hp : parse_hunk_header l with
    | none =>
      rw [hp] at h
      cases h
      exact ⟨st2, rfl, hcur, hlen⟩
    | some info =>
      rw [hp] at h
      cases h
      exact ⟨_, rfl, rfl, hlen⟩
  · rw [Bool.not_eq_true] at hat
    by_cases hp : isPlusLine l
    · simp only [stepDiffLine, hat, hm, hp, Bool.false_eq_true, if_false, if_true] at h ⊢
      by_cases hcur1 : st1.cur ≤ st1.lines.length
      · rw [if_pos hcur1] at h
        cases h
        rw [if_pos (by omega)]
        refine ⟨_, rfl, by simp [hcur], ?_⟩
        simp only
        rw [List.length_insertIdx _ _ hcur1, List.length_insertIdx _ _ (by omega)]
        omega
      · rw [if_neg hcur1] at h
        cases h
    · rw [Bool.not_eq_true] at hp
      simp only [stepDiffLine, hat, hm, hp, Bool.false_eq_true, if_false] at h ⊢
      by_cases hsp : strStarts l " "
      · rw [if_pos hsp] at h
        cases h
        rw [if_pos hsp]
        exact ⟨_, rfl, by simp [hcur], hlen⟩
      · rw [if_neg hsp] at h
        rw [if_neg hsp]
        split at h <;> (cases h) <;> (split <;> exact ⟨st2, rfl, hcur, hlen⟩)

/-- Loop-level simulation: an addition-only payload that ran successfully
runs successfully again from any state with the same cursor and at least
as many lines. -/
theorem loop_sim :
    ∀ (d : List String) (st1 st1' st2 : DiffState),
      (∀ l ∈ d, isMinusLine l = false) → applyDiffLoop d st1 = some st1' →
      st2.cur = st1.cur → st1.lines.length ≤ st2.lines.length →
      ∃ st2', applyDiffLoop d st2 = some st2' ∧ st2'.cur = st1'.cur ∧
        st1'.lines.length ≤ st2'.lines.length := by
  intro d
  induction d with
  | nil =>
    intro st1 st1' st2 _ h hcur hlen
    cases h
    exact ⟨st2, rfl, hcur, hlen⟩
  | cons l ls ih =>
    intro st1 st1' st2 hd h hcur hlen
    unfold applyDiffLoop at h
    cases hstep : stepDiffLine st1 l with
    | none => rw [hstep] at h; cases h
    | some stm =>
      rw [hstep] at h
      obtain ⟨stm2, hstep2, hcur2, hlen2⟩ :=
        step_sim (hd l (List.mem_cons_self _ _)) hstep hcur hlen
      obtain ⟨st2', hrun2, hcur', hlen'⟩ :=
        ih stm st1' stm2 (fun x hx => hd x (List.mem_cons_of_mem _ hx)) h hcur2 hlen2
      exact ⟨st2', by simp [applyDiffLoop, hstep2, hrun2], hcur', hlen'⟩

-- Newline-freeness: every line produced by `rustLines` and every line
-- the loop ever stores is free of `'\n'`, so joining with `'\n'` and
-- re-splitting recovers the lines (up to one dropped trailing empty).

theorem splitNl_nlFree : ∀ (cs : List Char), ∀ p ∈ splitNl cs, '\n' ∉ p := by
  intro cs
  induction cs with
  | nil =>
    intro p hp
    simp only [splitNl, List.mem_singleton] at hp
    simp [hp]
  | cons c cs ih =>
    intro p hp
    by_cases hc : c = '\n'
    · rw [splitNl, if_pos hc] at hp
      rcases List.mem_cons.mp hp with h | h
      · simp [h]
      · exact ih p h
    · rw [splitNl, if_neg hc] at hp
      cases hsp : splitNl cs with
      | nil =>
        rw [hsp] at hp
        simp only [List.mem_singleton] at hp
        subst hp
        intro hmem
        rw [List.mem_singleton] at hmem
        exact hc hmem.symm
      | cons q qs =>
        rw [hsp] at hp
        rcases List.mem_cons.mp hp with h | h
        · subst h
          intro hmem
          rcases List.mem_cons.mp hmem with h | h
          · exact hc h.symm
          · exact ih q (by rw [hsp]; exact List.mem_cons_self _ _) h
        · exact ih p (by rw [hsp]; exact List.mem_cons_of_mem _ h)

theorem stripCR_nlFree {cs : List Char} (h : '\n' ∉ cs) : '\n' ∉ stripCR cs := by
  cases hlast : cs.getLast? with
  | none => unfold stripCR; rw [hlast]; exact h
  | some c =>
    unfold stripCR
    rw [hlast]
    show '\n' ∉ (if c = '\r' then cs.dropLast else cs)
    by_cases hc : c = '\r'
    · rw [if_pos hc]
      intro hmem
      exact h ((List.dropLast_sublist cs).subset hmem)
    · rw [if_neg hc]
      exact h

theorem rustLines_nlFree (s : String) : ∀ l ∈ rustLines s, '\n' ∉ l.toList := by
  intro l hl
  unfold rustLines at hl
  simp only [List.mem_map] at hl
  obtain ⟨cs, hcs, hmk⟩ := hl
  have hcs' : cs ∈ splitNl s.toList := by
    by_cases hlast : (splitNl s.toList).getLast? = some []
    · rw [if_pos hlast] at hcs
      exact (List.dropLast_sublist _).subset hcs
    · rw [if_neg hlast] at hcs
      exact hcs
  have : '\n' ∉ stripCR cs := stripCR_nlFree (splitNl_nlFree s.toList cs hcs')
  rw [← hmk]
  exact this

theorem tailStr_nlFree {l : String} (h : '\n' ∉ l.toList) :
    '\n' ∉ (tailStr l).toList := by
  unfold tailStr
  intro hmem
  exact h ((List.tail_sublist _).subset hmem)

/-- One engine step keeps every stored line `'\n'`-free provided the
payload line is. -/
theorem step_nlFree {st st' : DiffState} {l : String}
    (h : stepDiffLine st l = some st')
    (hl : ∀ x ∈ st.lines, '\n' ∉ x.toList) (hln : '\n' ∉ l.toList) :
    ∀ x ∈ st'.lines, '\n' ∉ x.toList := by
  by_cases hat : strStarts l "@@"
  · simp only [stepDiffLine, hat, if_true] at h
    cases hp : parse_hunk_header l with
    | none => rw [hp] at h; cases h; exact hl
    | some info => rw [hp] at h; cases h; exact hl
  · rw [Bool.not_eq_true] at hat
    by_cases hm : isMinusLine l
    · simp only [stepDiffLine, hat, Bool.false_eq_true, if_false, hm, if_true] at h
      by_cases hcur : st.cur < st.lines.length
      · rw [if_pos hcur] at h
        cases h
        intro x hx
        exact hl x ((List.eraseIdx_sublist _ _).subset hx)
      · rw [if_neg hcur] at h; cases h; exact hl
    · rw [Bool.not_eq_true] at hm
      by_cases hp : isPlusLine l
      · simp only [stepDiffLine, hat, hm, hp, Bool.false_eq_true, if_false, if_true] at h
        by_cases hcur : st.cur ≤ st.lines.length
        · rw [if_pos hcur] at h
          cases h
          intro x hx
          simp only at hx
          rcases (List.mem_insertIdx hcur).mp hx with hx | hx
          · rw [hx]; exact tailStr_nlFree hln
          · exact hl x hx
        · rw [if_neg hcur] at h; cases h
      · rw [Bool.not_eq_true] at hp
        simp only [stepDiffLine, hat, hm, hp, Bool.false_eq_true, if_false] at h
        by_cases hsp : strStarts l " "
        · rw [if_pos hsp] at h; cases h; exact hl
        · rw [if_neg hsp] at h
          split at h <;> (cases h; exact hl)

/-- The whole loop keeps every stored line `'\n'`-free provided all
payload lines are. -/
theorem loop_nlFree :
    ∀ (d : List String) (st st' : DiffState), applyDiffLoop d st = some st' →
      (∀ x ∈ st.lines, '\n' ∉ x.toList) → (∀ x ∈ d, '\n' ∉ x.toList) →
      ∀ x ∈ st'.lines, '\n' ∉ x.toList := by
  intro d
  induction d with
  | nil => intro st st' h hl _; cases h; exact hl
  | cons l ls ih =>
    intro st st' h hl hd
    unfold applyDiffLoop at h
    cases hstep : stepDiffLine st l with
    | none => rw [hstep] at h; cases h
    | some st1 =>
      rw [hstep] at h
      exact ih st1 st' h
        (step_nlFree hstep hl (hd l (List.mem_cons_self _ _)))
        (fun x hx => hd x (List.mem_cons_of_mem _ hx))

theorem splitNl_single {cs : List Char} (h : '\n' ∉ cs) : splitNl cs = [cs] := by
  induction cs with
  | nil => rfl
  | cons c cs ih =>
    have hc : c ≠ '\n' := fun hc => h (by rw [hc]; exact List.mem_cons_self _ _)
    have hcs : '\n' ∉ cs := fun hm => h (List.mem_cons_of_mem _ hm)
    rw [splitNl, if_neg hc, ih hcs]

theorem splitNl_append {a : List Char} (t : List Char) (h : '\n' ∉ a) :
    splitNl (a ++ '\n' :: t) = a :: splitNl t := by
  induction a with
  | nil => simp [splitNl]
  | cons c cs ih =>
    have hc : c ≠ '\n' := fun hc => h (by rw [hc]; exact List.mem_cons_self _ _)
    have hcs : '\n' ∉ cs := fun hm => h (List.mem_cons_of_mem _ hm)
    rw [List.cons_append, splitNl, if_neg hc, ih hcs]

theorem splitNl_joinNlList :
    ∀ (ps : List (List Char)), ps ≠ [] → (∀ p ∈ ps, '\n' ∉ p) →
      splitNl (joinNlList ps) = ps := by
  intro ps
  induction ps with
  | nil => intro h; exact absurd rfl h
  | cons l ls ih =>
    intro _ hps
    cases ls with
    | nil =>
      rw [joinNlList]
      exact splitNl_single (hps l (List.mem_cons_self _ _))
    | cons m rest =>
      have hj : joinNlList (l :: m :: rest) = l ++ '\n' :: joinNlList (m :: rest) := rfl
      rw [hj, splitNl_append _ (hps l (List.mem_cons_self _ _))]
      have hne : m :: rest ≠ [] := fun hh => List.noConfusion hh
      have hih := ih hne (fun p hp => hps p (List.mem_cons_of_mem _ hp))
      rw [hih]

/-- Re-reading a written file: when every line is `'\n'`-free, the
`join("\n")` / `lines()` round trip loses at most the final line (and
only when that line is empty), so the line count drops by at most 1. -/
theorem rustLines_joinNl_len (ls : List String)
    (h : ∀ l ∈ ls, '\n' ∉ l.toList) :
    ls.length - 1 ≤ (rustLines (joinNl ls)).length ∧
      (rustLines (joinNl ls)).length ≤ ls.length := by
  cases hls : ls with
  | nil => exact ⟨by simp, by simp [joinNl, rustLines, joinNlList, splitNl]⟩
  | cons l rest =>
    have hps : splitNl ((joinNl ls).toList) = ls.map String.toList := by
      show splitNl (joinNlList (ls.map String.toList)) = ls.map String.toList
      refine splitNl_joinNlList _ (by simp [hls]) ?_
      intro p hp
      simp only [List.mem_map] at hp
      obtain ⟨x, hx, rfl⟩ := hp
      exact h x hx
    rw [← hls]
    have hre : rustLines (joinNl ls) =
        (if (splitNl (joinNl ls).toList).getLast? = some [] then
          (splitNl (joinNl ls).toList).dropLast
        else splitNl (joinNl ls).toList).map (fun cs => String.mk (stripCR cs)) := rfl
    rw [hre, hps]
    by_cases hlast : (ls.map String.toList).getLast? = some []
    · rw [if_pos hlast]
      simp only [List.length_map, List.length_dropLast]
      omega
    · rw [if_neg hlast]
      simp only [List.length_map]
      omega

/-- Inversion of a successful `tool_apply_diff` call: all three
file-system operations succeeded, the loop completed with some final
state, and the result payload and new file state are built from it. -/
theorem tool_apply_diff_ok_inv {fs : FileState} {p d : String}
    {r : ApplyDiffResult} {fs' : FileState}
    (h : tool_apply_diff fs p d = some (Except.ok r, fs')) :
    fs.fileExists = true ∧ fs.readsOk = true ∧ fs.writesOk = true ∧
    ∃ st, applyDiffLoop (rustLines d) (initState (rustLines fs.content)) = some st ∧
      r = ⟨true, "Successfully applied diff to " ++ p,
        st.added + st.removed, st.added, st.removed⟩ ∧
      fs' = ⟨true, true, true, joinNl st.lines⟩ := by
  by_cases hfe : fs.fileExists
  · by_cases hro : fs.readsOk
    · cases hml : applyDiffLoop (rustLines d) (initState (rustLines fs.content)) with
      | none => simp [tool_apply_diff, hfe, hro, hml] at h
      | some st =>
        by_cases hw : fs.writesOk
        · simp only [tool_apply_diff, hfe, hro, hml, hw, Bool.not_true,
            Bool.false_eq_true, if_false, Option.some_inj] at h
          have hA := congrArg Prod.fst h
          have hB := congrArg Prod.snd h
          simp only at hA hB
          injection hA with hA2
          refine ⟨hfe, hro, hw, st, rfl, hA2.symm, ?_⟩
          rw [← hB]
        · rw [Bool.not_eq_true] at hw
          simp [tool_apply_diff, hfe, hro, hml, hw] at h
    · rw [Bool.not_eq_true] at hro
      simp [tool_apply_diff, hfe, hro] at h
  · rw [Bool.not_eq_true] at hfe
    simp [tool_apply_diff, hfe] at h

/-- C6: for a payload whose deletions and additions all fall within the
bounds of the evolving line sequence (certified by a successful run of
the strict variant `applyDiffStrict`, which fails exactly on an
out-of-range operation), a successful `tool_apply_diff` call reports
`lines_added` equal to the number of `+` payload lines, `lines_removed`
equal to the number of `-` payload lines, and
`lines_changed = lines_added + lines_removed`. -/
theorem counters_match_payload (fs : FileState) (p d : String)
    (r : ApplyDiffResult) (fs' : FileState) (st' : DiffState)
    (hstrict : applyDiffStrict (rustLines d) (initState (rustLines fs.content)) = some st')
    (hok : tool_apply_diff fs p d = some (Except.ok r, fs')) :
    r.lines_added = countAdds (rustLines d) ∧
    r.lines_removed = countRems (rustLines d) ∧
    r.lines_changed = r.lines_added + r.lines_removed := by
  obtain ⟨hloop, hadd, hrem⟩ := strict_loop _ _ _ hstrict
  obtain ⟨_, _, _, st, hml, hr, _⟩ := tool_apply_diff_ok_inv hok
  rw [hml] at hloop
  injection hloop with he
  subst he
  subst hr
  simp only [initState] at hadd hrem
  exact ⟨by simpa using hadd, by simpa using hrem, rfl⟩

/-- Witness for `counters_match_payload`: a fully in-bounds single-hunk
diff replacing one line and keeping one context line. -/
theorem counters_match_payload_witness :
    (⟨true, "Successfully applied diff to f", 2, 1, 1⟩ : ApplyDiffResult).lines_added =
      countAdds (rustLines "@@ -1,2 +1,2 @@\n-a\n+c\n b") ∧
    (⟨true, "Successfully applied diff to f", 2, 1, 1⟩ : ApplyDiffResult).lines_removed =
      countRems (rustLines "@@ -1,2 +1,2 @@\n-a\n+c\n b") ∧
    (⟨true, "Successfully applied diff to f", 2, 1, 1⟩ : ApplyDiffResult).lines_changed =
      (⟨true, "Successfully applied diff to f", 2, 1, 1⟩ : ApplyDiffResult).lines_added +
      (⟨true, "Successfully applied diff to f", 2, 1, 1⟩ : ApplyDiffResult).lines_removed :=
  counters_match_payload ⟨true, true, true, "a\nb"⟩ "f" "@@ -1,2 +1,2 @@\n-a\n+c\n b"
    ⟨true, "Successfully applied diff to f", 2, 1, 1⟩ ⟨true, true, true, "c\nb"⟩
    ⟨["c", "b"], 1, 1, 2⟩ (by decide) (by decide)

/-- C9: every error-free run satisfies
`final line count + lines_removed = original line count + lines_added`:
each counter is incremented exactly when one insertion or removal is
actually performed. -/
theorem length_conservation (fs : FileState) (p d : String)
    (r : ApplyDiffResult) (fs' : FileState)
    (hok : tool_apply_diff fs p d = some (Except.ok r, fs')) :
    ∃ st, applyDiffLoop (rustLines d) (initState (rustLines fs.content)) = some st ∧
      st.lines.length + r.lines_removed =
        (rustLines fs.content).length + r.lines_added := by
  obtain ⟨_, _, _, st, hml, hr, _⟩ := tool_apply_diff_ok_inv hok
  have hlen := loop_len _ _ _ hml
  subst hr
  simp only [initState] at hlen
  refine ⟨st, hml, ?_⟩
  simp only []
  omega

/-- Witness for `length_conservation`: the replacement diff of C3. -/
theorem length_conservation_witness :
    ∃ st, applyDiffLoop (rustLines "@@ -1,3 +1,3 @@\n L1\n-L2\n+L2x\n L3")
        (initState (rustLines "L1\nL2\nL3")) = some st ∧
      st.lines.length +
        (⟨true, "Successfully applied diff to f", 2, 1, 1⟩ : ApplyDiffResult).lines_removed =
      (rustLines "L1\nL2\nL3").length +
        (⟨true, "Successfully applied diff to f", 2, 1, 1⟩ : ApplyDiffResult).lines_added :=
  length_conservation ⟨true, true, true, "L1\nL2\nL3"⟩ "f"
    "@@ -1,3 +1,3 @@\n L1\n-L2\n+L2x\n L3"
    ⟨true, "Successfully applied diff to f", 2, 1, 1⟩
    ⟨true, true, true, "L1\nL2x\nL3"⟩ (by decide)

/-- C8 (amended): re-applying the same addition-only diff is never
deduplicated — if the first application succeeds, the second also
succeeds and reports the same positive `lines_added`, inserting the
added lines again. (The *text* after two applications, however, is not
always different from the text after one: an inserted empty line can be
absorbed by the `join("\n")` / `lines()` round trip, see the
counterexample.) -/
theorem addition_only_reapplies (fs : FileState) (p d : String)
    (r : ApplyDiffResult) (fs' : FileState)
    (hnm : ∀ l ∈ rustLines d, isMinusLine l = false)
    (hk : 1 ≤ countAdds (rustLines d))
    (h : tool_apply_diff fs p d = some (Except.ok r, fs')) :
    r.lines_added = countAdds (rustLines d) ∧
    ∃ r2 fs'', tool_apply_diff fs' p d = some (Except.ok r2, fs'') ∧
      r2.lines_added = countAdds (rustLines d) := by
  obtain ⟨hfe, hro, hw, st1, hml, hr, hfs⟩ := tool_apply_diff_ok_inv h
  have hadd1 := loop_added _ _ _ hml
  have hrem1 := loop_removed_of_noMinus _ _ _ hnm hml
  have hlen1 := loop_len _ _ _ hml
  simp only [initState] at hadd1 hrem1 hlen1
  have hnl1 : ∀ x ∈ st1.lines, '\n' ∉ x.toList := by
    refine loop_nlFree _ _ _ hml ?_ (rustLines_nlFree d)
    simp only [initState]
    exact rustLines_nlFree fs.content
  obtain ⟨hjl1, hjl2⟩ := rustLines_joinNl_len st1.lines hnl1
  have hcur0 : (initState (rustLines (joinNl st1.lines))).cur =
      (initState (rustLines fs.content)).cur := rfl
  have hlen0 : (initState (rustLines fs.content)).lines.length ≤
      (initState (rustLines (joinNl st1.lines))).lines.length := by
    simp only [initState]
    omega
  obtain ⟨st2, hrun2, _, _⟩ := loop_sim (rustLines d) _ st1 _ hnm hml hcur0 hlen0
  have hadd2 := loop_added _ _ _ hrun2
  simp only [initState] at hadd2
  subst hfs
  refine ⟨by subst hr; simpa using hadd1, ?_⟩
  refine ⟨⟨true, "Successfully applied diff to " ++ p,
      st2.added + st2.removed, st2.added, st2.removed⟩,
    ⟨true, true, true, joinNl st2.lines⟩, ?_, by simpa using hadd2⟩
  simp only [tool_apply_diff, hrun2, Bool.not_true, Bool.false_eq_true, if_false]

/-- Witness for `addition_only_reapplies`: inserting `x` at the top of a
one-line file, twice. -/
theorem addition_only_reapplies_witness :
    (⟨true, "Successfully applied diff to f", 1, 1, 0⟩ : ApplyDiffResult).lines_added =
      countAdds (rustLines "+x") ∧
    ∃ r2 fs'', tool_apply_diff ⟨true, true, true, "x\na"⟩ "f" "+x" =
        some (Except.ok r2, fs'') ∧
      r2.lines_added = countAdds (rustLines "+x") :=
  addition_only_reapplies ⟨true, true, true, "a"⟩ "f" "+x"
    ⟨true, "Successfully applied diff to f", 1, 1, 0⟩ ⟨true, true, true, "x\na"⟩
    (by decide) (by decide) (by decide)

theorem splitNl_ne_nil : ∀ cs : List Char, splitNl cs ≠ [] := by
  intro cs
  induction cs with
  | nil => simp [splitNl]
  | cons c cs ih =>
    rw [splitNl]
    by_cases hc : c = '\n'
    · rw [if_pos hc]; simp
    · rw [if_neg hc]
      cases hsp : splitNl cs with
      | nil => simp
      | cons q qs => simp

theorem joinNlList_splitNl : ∀ cs : List Char, joinNlList (splitNl cs) = cs := by
  intro cs
  induction cs with
  | nil => rfl
  | cons c cs ih =>
    rw [splitNl]
    by_cases hc : c = '\n'
    · rw [if_pos hc, hc]
      cases hsp : splitNl cs with
      | nil => exact absurd hsp (splitNl_ne_nil cs)
      | cons q qs =>
        have hj : joinNlList ([] :: q :: qs) = [] ++ '\n' :: joinNlList (q :: qs) := rfl
        rw [hj, ← hsp, ih]
        rfl
    · rw [if_neg hc]
      cases hsp : splitNl cs with
      | nil => exact absurd hsp (splitNl_ne_nil cs)
      | cons q qs =>
        cases qs with
        | nil =>
          have h1 : joinNlList [c :: q] = c :: q := rfl
          rw [h1]
          rw [hsp] at ih
          have h2 : joinNlList [q] = q := rfl
          rw [h2] at ih
          rw [ih]
        | cons m rest =>
          have h1 : joinNlList ((c :: q) :: m :: rest) =
              (c :: q) ++ '\n' :: joinNlList (m :: rest) := rfl
          rw [h1]
          rw [hsp] at ih
          have h2 : joinNlList (q :: m :: rest) =
              q ++ '\n' :: joinNlList (m :: rest) := rfl
          rw [h2] at ih
          rw [List.cons_append, ih]

theorem splitNl_last_empty :
    ∀ cs : List Char, cs.getLast? = some '\n' →
      (splitNl cs).getLast? = some [] := by
  intro cs
  induction cs with
  | nil => intro h; simp [List.getLast?] at h
  | cons c cs ih =>
    intro h
    cases cs with
    | nil =>
      simp [List.getLast?] at h
      rw [splitNl, if_pos h]
      rfl
    | cons d t =>
      rw [List.getLast?_cons_cons] at h
      have ihh := ih h
      rw [splitNl]
      by_cases hc : c = '\n'
      · rw [if_pos hc]
        cases hsp : splitNl (d :: t) with
        | nil => exact absurd hsp (splitNl_ne_nil _)
        | cons q qs =>
          rw [List.getLast?_cons_cons, ← hsp]
          exact ihh
      · rw [if_neg hc]
        cases hsp : splitNl (d :: t) with
        | nil => exact absurd hsp (splitNl_ne_nil _)
        | cons q qs =>
          cases qs with
          | nil =>
            rw [hsp] at ihh
            simp [List.getLast?] at ihh
            have hj := joinNlList_splitNl (d :: t)
            rw [hsp, ihh] at hj
            have hj' : ([] : List Char) = d :: t := hj
            exact List.noConfusion hj'
          | cons m rest =>
            rw [List.getLast?_cons_cons]
            rw [hsp, List.getLast?_cons_cons] at ihh
            exact ihh

theorem joinNlList_length :
    ∀ ps : List (List Char), ps ≠ [] →
      (joinNlList ps).length + 1 = (ps.map List.length).sum + ps.length := by
  intro ps
  induction ps with
  | nil => intro h; exact absurd rfl h
  | cons l ls ih =>
    intro _
    cases ls with
    | nil => simp [joinNlList]
    | cons m rest =>
      have hj : joinNlList (l :: m :: rest) =
          l ++ '\n' :: joinNlList (m :: rest) := rfl
      rw [hj]
      have hihh := ih (fun hh => List.noConfusion hh)
      simp only [List.map_cons, List.sum_cons, List.length_cons,
        List.length_append] at hihh ⊢
      omega

theorem stripCR_length_le (cs : List Char) : (stripCR cs).length ≤ cs.length := by
  cases h : cs.getLast? with
  | none => unfold stripCR; rw [h]
  | some c =>
    unfold stripCR
    rw [h]
    show (if c = '\r' then cs.dropLast else cs).length ≤ cs.length
    by_cases hc : c = '\r'
    · rw [if_pos hc, List.length_dropLast]; omega
    · rw [if_neg hc]

theorem sum_len_stripCR :
    ∀ qs : List (List Char),
      ((qs.map stripCR).map List.length).sum ≤ (qs.map List.length).sum := by
  intro qs
  induction qs with
  | nil => simp
  | cons q rest ih =>
    simp only [List.map_cons, List.sum_cons]
    have := stripCR_length_le q
    omega

/-- Writing back a file whose original text ended in a newline always
shortens it: the `lines()` split drops the final empty line and the
`join("\n")` cannot restore the trailing terminator. -/
theorem len_joinNl_lt (s : String) (h : s.toList.getLast? = some '\n') :
    (joinNl (rustLines s)).length < s.length := by
  have hps : (splitNl s.toList).getLast? = some [] := splitNl_last_empty _ h
  have hdecomp : (splitNl s.toList).dropLast ++ [[]] = splitNl s.toList :=
    List.dropLast_append_getLast? [] (Option.mem_def.mpr hps)
  have hrl : rustLines s =
      ((splitNl s.toList).dropLast).map (fun cs => String.mk (stripCR cs)) := by
    have hre : rustLines s =
        (if (splitNl s.toList).getLast? = some [] then (splitNl s.toList).dropLast
        else splitNl s.toList).map (fun cs => String.mk (stripCR cs)) := rfl
    rw [hre, if_pos hps]
  have hout : (joinNl (rustLines s)).length =
      (joinNlList (((splitNl s.toList).dropLast).map stripCR)).length := by
    rw [hrl]
    show (joinNlList (
      (((splitNl s.toList).dropLast).map (fun cs => String.mk (stripCR cs))).map
        String.toList)).length = _
    rw [List.map_map]
    rfl
  have hin : s.length = (joinNlList (splitNl s.toList)).length := by
    rw [joinNlList_splitNl]
    rfl
  cases hq : (splitNl s.toList).dropLast with
  | nil =>
    rw [hq] at hdecomp
    have hj := joinNlList_splitNl s.toList
    rw [← hdecomp] at hj
    have hj' : ([] : List Char) = s.toList := hj
    rw [← hj'] at h
    simp [List.getLast?] at h
  | cons m rest =>
    rw [← hdecomp] at hin
    have hlen1 := joinNlList_length ((splitNl s.toList).dropLast ++ [[]])
      (by rw [hq]; simp)
    have hlen2 := joinNlList_length (((splitNl s.toList).dropLast).map stripCR)
      (by rw [hq]; simp)
    have hsum := sum_len_stripCR ((splitNl s.toList).dropLast)
    rw [hout, hin]
    simp only [List.map_append, List.sum_append, List.length_append,
      List.map_cons, List.sum_cons, List.map_nil, List.sum_nil,
      List.length_cons, List.length_nil, List.length_map] at hlen1 hlen2 ⊢
    omega

/-- C10: the text written back is always the mutated line sequence
joined with the single separator `"\n"` (no platform-dependent
separator); consequently a no-op diff rewrites the stored content to the
normalized re-join of its lines, an original trailing newline is never
preserved (the output is strictly shorter), and CRLF endings are
rewritten as LF (concrete instance). -/
theorem output_joined_with_lf :
    (∀ (fs : FileState) (p d : String) (r : ApplyDiffResult) (fs' : FileState),
      tool_apply_diff fs p d = some (Except.ok r, fs') →
      ∃ st, applyDiffLoop (rustLines d) (initState (rustLines fs.content)) = some st ∧
        fs'.content = joinNl st.lines) ∧
    (∀ s p : String, tool_apply_diff ⟨true, true, true, s⟩ p "" =
      some (Except.ok ⟨true, "Successfully applied diff to " ++ p, 0, 0, 0⟩,
        ⟨true, true, true, joinNl (rustLines s)⟩)) ∧
    (∀ s : String, s.toList.getLast? = some '\n' →
      (joinNl (rustLines s)).length < s.length) ∧
    joinNl (rustLines "a\r\nb\r\n") = "a\nb" := by
  refine ⟨?_, ?_, len_joinNl_lt, by decide⟩
  · intro fs p d r fs' h
    obtain ⟨_, _, _, st, hml, _, hfs⟩ := tool_apply_diff_ok_inv h
    exact ⟨st, hml, by rw [hfs]⟩
  · intro s p
    rfl

/-- Witness for `output_joined_with_lf` at concrete inputs: a no-op diff
on `"a\n"` writes back `"a"`, and any content ending in a newline
shrinks. -/
theorem output_joined_with_lf_witness :
    (∃ st, applyDiffLoop (rustLines "") (initState (rustLines "a\n")) = some st ∧
      ("a" : String) = joinNl st.lines) ∧
    (joinNl (rustLines "x\n")).length < ("x\n" : String).length := by
  refine ⟨?_, output_joined_with_lf.2.2.1 "x\n" (by decide)⟩
  obtain ⟨st, hml, hc⟩ := output_joined_with_lf.1 ⟨true, true, true, "a\n"⟩ "f" ""
    ⟨true, "Successfully applied diff to f", 0, 0, 0⟩ ⟨true, true, true, "a"⟩
    (by decide)
  exact ⟨st, hml, hc⟩
